import Mathlib

/-!
# hh-monitor: a shallow embedding of `main.go`

The program asks a job site for the page of every requested programming
language, reads the number standing in front of the word stem "ваканс" on
that page, and prints (or appends to a file) a timestamped block with one
`lang=value` line per language.

Conventions of the embedding:

* a Go `[]byte` is a `List Nat` (one number per byte), a Go `string` that is
  only copied around (language names, error texts, the report) is a `String`;
* Go's `int` is an `Int` bounded by the platform's `strconv.IntSize`, which is
  a parameter `intSize`; `uint16` is a `Nat` reduced modulo `65536` where the
  source converts to it;
* the network (`loadPage`), the clock (`time.Now`) and the order in which the
  goroutines deliver on the channel are explicit parameters;
* a Go panic is the `none` / `Except.error` result of a function returning
  `Option` / `Except`.
-/

namespace HhMonitor

/-! ## Library functions used by `findVacancyCount` -/

/-- ASCII decimal digit, the class `\d` of Go's `regexp` (RE2 syntax: ASCII only). -/
def isDigit (b : Nat) : Bool := decide (48 ≤ b) && decide (b ≤ 57)

/-- The UTF-8 bytes of the literal "ваканс" of the pattern. -/
def stem : List Nat :=
  [0xD0, 0xB2, 0xD0, 0xB0, 0xD0, 0xBA, 0xD0, 0xB0, 0xD0, 0xBD, 0xD1, 0x81]

/-- The literal tail of the pattern `\d+ ваканс`: one space, then the stem. -/
def literal : List Nat := 32 :: stem

/-- Test whether `p` is an initial segment of `s`. -/
def startsWith : List Nat → List Nat → Bool
  | [], _ => true
  | _ :: _, [] => false
  | a :: p, b :: s => decide (a = b) && startsWith p s

/-- Match of `\d+ ваканс` anchored at the first byte of `s`, giving the matched
text. The greedy `\d+` takes the whole digit run; giving digits back cannot
help, since the byte after a shorter run is a digit and not the space.
`regexp` reads the bytes as UTF-8 runes, and a match on runes is a match on
bytes here: an ASCII byte is never inside a longer rune, so every digit is
at a rune boundary, and the six letters of the stem decode from exactly the
twelve bytes of `stem` (an invalid or overlong sequence decodes to U+FFFD,
which the pattern does not contain). -/
def matchHere (s : List Nat) : Option (List Nat) :=
  let ds := s.takeWhile isDigit
  let rest := s.dropWhile isDigit
  if ds ≠ [] ∧ startsWith literal rest = true then some (ds ++ literal) else none

/-- Leftmost match of the pattern, as `regexp.Find` returns it: the text of the
match at the least start offset, `none` (Go: `nil`) when there is no match. -/
def Find : List Nat → Option (List Nat)
  | [] => none
  | b :: s =>
    match matchHere (b :: s) with
    | some m => some m
    | none => Find s

/-- Model of `strings.Split` for a one-byte separator: the pieces between
the occurrences of `sep`, never an empty list of pieces. -/
def Split : List Nat → Nat → List (List Nat)
  | [], _ => [[]]
  | b :: s, sep =>
    if b = sep then [] :: Split s sep
    else
      match Split s sep with
      | h :: t => (b :: h) :: t
      | [] => [[b]]

/-- Value of a run of ASCII digits read in base ten, most significant first. -/
def digitsValue (ds : List Nat) : Nat :=
  ds.foldl (fun acc d => acc * 10 + (d - 48)) 0

/-- Model of `strconv.Atoi`: the value and whether the error is non-nil.
Syntax: an optional sign and at least one digit, else `(0, error)`. A value
that does not fit a signed `intSize`-bit integer gives the nearest bound and
a range error, as `strconv.ParseInt` documents. -/
def Atoi (intSize : Nat) (s : List Nat) : Int × Bool :=
  let neg : Bool := match s with
    | 45 :: _ => true
    | _ => false
  let body : List Nat := match s with
    | 43 :: t => t
    | 45 :: t => t
    | _ => s
  if body = [] ∨ body.all isDigit = false then (0, true)
  else
    let un : Nat := digitsValue body
    let cutoff : Nat := 2 ^ (intSize - 1)
    if neg = false ∧ cutoff ≤ un then (((cutoff - 1 : Nat) : Int), true)
    else if neg = true ∧ cutoff < un then (-(cutoff : Int), true)
    else (if neg then -(un : Int) else (un : Int), false)

/-! ## `findVacancyCount` -/

/-- Embedding of `findVacancyCount`: the `uint16` read off the first match of
the pattern in the page, `0` when `Find` gives nothing; the error of `Atoi`
is dropped and its value converted to `uint16`. -/
def findVacancyCount (intSize : Nat) (page : List Nat) : Nat :=
  let header := (Find page).getD []
  if header = [] then 0
  else
    let strVacCount := (Split header 32).headD []
    let vacCount := (Atoi intSize strVacCount).1
    (vacCount % 65536).toNat

/-- UTF-8 encoding of one character, as Go stores string literals. -/
def utf8Char (c : Char) : List Nat :=
  let n := c.toNat
  if n < 0x80 then [n]
  else if n < 0x800 then [0xC0 + n / 64, 0x80 + n % 64]
  else if n < 0x10000 then [0xE0 + n / 4096, 0x80 + n / 64 % 64, 0x80 + n % 64]
  else [0xF0 + n / 262144, 0x80 + n / 4096 % 64, 0x80 + n / 64 % 64, 0x80 + n % 64]

/-- UTF-8 bytes of a text. -/
def utf8 (s : String) : List Nat := s.toList.flatMap utf8Char

/-! ## Workers and the dispatcher -/

/-- The record `monitorResult`; a nil `error` is `none`, a non-nil one is
its message text (all the program ever does with it is call `Error()`). -/
structure monitorResult where
  lang : String
  vacancyCount : Nat
  error : Option String
  deriving DecidableEq

/-- Embedding of `getUrl`: the language is pasted unescaped behind the query. -/
def getUrl (lang : String) : String :=
  let url := "https://spb.hh.ru/search/vacancy"
  let query := "?area=2&professional_role=96&search_field=name&text=" ++ lang
  url ++ query

/-- Embedding of `loadPage`. The network is the parameter `httpGet`: for a
request URL the bytes of the body, or the error of `http.Get` / `io.ReadAll`. -/
def loadPage (httpGet : String → Except String (List Nat)) (lang : String) :
    Except String (List Nat) :=
  let requestURL := getUrl lang
  httpGet requestURL

/-- Embedding of `getVacancyCount`: `(0, err)` when the page cannot be
loaded, else the count found on the page and a nil error. -/
def getVacancyCount (intSize : Nat) (httpGet : String → Except String (List Nat))
    (lang : String) : Nat × Option String :=
  match loadPage httpGet lang with
  | .error err => (0, some err)
  | .ok page => (findVacancyCount intSize page, none)

/-- Embedding of `monitorLang`: the value the goroutine sends on the channel. -/
def monitorLang (intSize : Nat) (httpGet : String → Except String (List Nat))
    (lang : String) : monitorResult :=
  let r := getVacancyCount intSize httpGet lang
  { lang := lang, vacancyCount := r.1, error := r.2 }

/-- The receive loop `for i := range langs { monitorRes[i] = <-ch }`.
`pending` holds the values of the goroutines that have not been received
from yet, in launch order. Each receive takes one of them; which one is
the scheduler's choice, read off `sched` (the head, reduced modulo the
number of pending senders; `0` when `sched` is used up). A receive with no
sender left would block forever: `none`. -/
def receiveLoop : List String → Nat → List Nat → List monitorResult →
    List monitorResult → Option (List monitorResult)
  | [], _, _, _, monitorRes => some monitorRes
  | _ :: rest, i, sched, pending, monitorRes =>
    match pending with
    | [] => none
    | p :: ps =>
      let k := sched.headD 0 % (p :: ps).length
      receiveLoop rest (i + 1) sched.tail ((p :: ps).eraseIdx k)
        (monitorRes.set i ((p :: ps).getD k p))

/-- Embedding of `monitor`: one goroutine per language is started, then
`len(langs)` values are received into the slots `0, 1, ...` of a slice of
that length, in the order of arrival. -/
def monitor (intSize : Nat) (httpGet : String → Except String (List Nat))
    (sched : List Nat) (langs : List String) : Option (List monitorResult) :=
  let monitorRes := List.replicate langs.length
    ({ lang := "", vacancyCount := 0, error := none } : monitorResult)
  let sent := langs.map (monitorLang intSize httpGet)
  receiveLoop langs 0 sched sent monitorRes

/-- The order of arrival on the channel under a scheduler, for `n` receives:
the pending value picked first, then the arrivals of the others. -/
def deliver : Nat → List Nat → List monitorResult → List monitorResult
  | 0, _, _ => []
  | _ + 1, _, [] => []
  | n + 1, sched, p :: ps =>
    let k := sched.headD 0 % (p :: ps).length
    (p :: ps).getD k p :: deliver n sched.tail ((p :: ps).eraseIdx k)

/-! ## The report -/

/-- The fields of `time.Now()` that the layout uses. -/
structure Time where
  year : Nat
  month : Nat
  day : Nat
  hour : Nat
  minute : Nat

/-- Embedding of `strconv.Itoa`: the decimal text of an integer. -/
def Itoa (i : Int) : String := toString i

/-- A number written with at least two decimal digits, zero padded, as the
layout elements `06`, `01`, `02`, `15` and `04` are written. -/
def pad2 (n : Nat) : String := if n < 10 then "0" ++ Itoa n else Itoa n

/-- Model of `Time.Format` for the layout of the source, the line end included. -/
def Format (t : Time) : String :=
  "[" ++ pad2 (t.year % 100) ++ "-" ++ pad2 t.month ++ "-" ++ pad2 t.day ++ " " ++
    pad2 t.hour ++ ":" ++ pad2 t.minute ++ "]\n"

/-- Model of `fmt.Sprintf` for the format string of the source, two `%s` verbs. -/
def Sprintf (a b : String) : String := a ++ "=" ++ b ++ "\n"

/-- Embedding of `formStatEntry`; `now` stands for `time.Now()`, the string
builder is the accumulator of the fold. -/
def formStatEntry (now : Time) (monitorRes : List monitorResult) : String :=
  monitorRes.foldl
    (fun sb res =>
      let langLine :=
        match res.error with
        | some err => Sprintf res.lang err
        | none => Sprintf res.lang (Itoa (res.vacancyCount : Int))
      sb ++ langLine)
    (Format now)

/-! ## Arguments and the file -/

/-- The record `args`. -/
structure args where
  filePath : String
  langs : List String
  deriving DecidableEq

/-- The ways `parseArgs` can stop without a result. -/
inductive Panic where
  | logPanic (msg : String)
  | indexOutOfRange (index len : Nat)
  | sliceOutOfRange (low len : Nat)
  deriving DecidableEq

/-- Embedding of `parseArgs`; `osArgs` is `os.Args`, the program name first. -/
def parseArgs (osArgs : List String) : Except Panic args :=
  if osArgs.length = 1 then .error (.logPanic "argumets are missing")
  else
    match osArgs.get? 1 with
    | none => .error (.indexOutOfRange 1 osArgs.length)
    | some first =>
      if first = "-f" then
        match osArgs.get? 2 with
        | none => .error (.indexOutOfRange 2 osArgs.length)
        | some filePath =>
          if 3 ≤ osArgs.length then .ok { filePath := filePath, langs := osArgs.drop 3 }
          else .error (.sliceOutOfRange 3 osArgs.length)
      else .ok { filePath := "", langs := osArgs.drop 1 }

/-- Model of `fmt.Sprintln` with one string operand. -/
def Sprintln (s : String) : String := s ++ "\n"

/-- Embedding of `saveToFile`. The files are a map from path to content;
`openErr` and `writeErr` are the errors of `os.OpenFile` and of
`file.WriteString` (nil: `none`), each of them fatal. The file is opened with
`O_CREATE|O_WRONLY|O_APPEND`: it is created empty when absent and the write
goes behind the content it has. -/
def saveToFile (openErr writeErr : Option String) (fs : String → Option String)
    (filePath entry : String) : Except String (String → Option String) :=
  match openErr with
  | some err => .error err
  | none =>
    let old := (fs filePath).getD ""
    let entry := Sprintln entry
    match writeErr with
    | some err => .error err
    | none => .ok (fun p => if p = filePath then some (old ++ entry) else fs p)

/-- A network for the examples: a page with 7 vacancies for "go", one with 5
for "rust", and a refused connection for every other request. -/
def sampleNet : String → Except String (List Nat) := fun url =>
  if url = getUrl "go" then .ok (utf8 "7 вакансий")
  else if url = getUrl "rust" then .ok (utf8 "5 вакансий")
  else .error "connection refused"

/-- A file system for the examples: one file, "stat.txt", holding "old\n". -/
def sampleFs : String → Option String := fun p =>
  if p = "stat.txt" then some "old\n" else none

/-! ## What a match of the pattern is -/

/-- The page has a match of the pattern (one or more ASCII digits, one space,
the stem) that starts behind `pre`, with digit run `ds` and `post` behind it. -/
def MatchAt (page pre ds post : List Nat) : Prop :=
  page = pre ++ (ds ++ literal ++ post) ∧ ds ≠ [] ∧ ∀ d ∈ ds, isDigit d = true

/-- Some part of the page matches the pattern. -/
def HasMatch (page : List Nat) : Prop :=
  ∃ pre ds post, MatchAt page pre ds post

/-- The match behind `pre` is the first one: no match starts further left. -/
def LeftmostMatch (page pre ds post : List Nat) : Prop :=
  MatchAt page pre ds post ∧
    ∀ pre' ds' post', MatchAt page pre' ds' post' → pre.length ≤ pre'.length

/-! ## Lemmas on the pattern matcher -/

theorem startsWith_append (p t : List Nat) : startsWith p (p ++ t) = true := by
  induction p with
  | nil => rfl
  | cons a p ih => simp [startsWith, ih]

theorem startsWith_elim {p s : List Nat} (h : startsWith p s = true) :
    ∃ t, s = p ++ t := by
  induction p generalizing s with
  | nil => exact ⟨s, rfl⟩
  | cons a p ih =>
    cases s with
    | nil => simp [startsWith] at h
    | cons b s =>
      simp only [startsWith, Bool.and_eq_true, decide_eq_true_eq] at h
      obtain ⟨t, ht⟩ := ih h.2
      exact ⟨t, by rw [h.1, ht]; rfl⟩

theorem takeWhile_digits (ds t : List Nat) (hd : ∀ d ∈ ds, isDigit d = true) :
    (ds ++ literal ++ t).takeWhile isDigit = ds := by
  induction ds with
  | nil => rfl
  | cons d ds ih =>
    have h1 : isDigit d = true := hd d (List.mem_cons_self _ _)
    have h2 := ih (fun x hx => hd x (List.mem_cons_of_mem _ hx))
    simp only [List.cons_append, List.takeWhile_cons, h1, if_true]
    exact congrArg _ h2

theorem dropWhile_digits (ds t : List Nat) (hd : ∀ d ∈ ds, isDigit d = true) :
    (ds ++ literal ++ t).dropWhile isDigit = literal ++ t := by
  induction ds with
  | nil => rfl
  | cons d ds ih =>
    have h1 : isDigit d = true := hd d (List.mem_cons_self _ _)
    have h2 := ih (fun x hx => hd x (List.mem_cons_of_mem _ hx))
    simp only [List.cons_append, List.dropWhile_cons, h1, if_true]
    exact h2

theorem matchHere_of_match (ds post : List Nat) (hne : ds ≠ [])
    (hd : ∀ d ∈ ds, isDigit d = true) :
    matchHere (ds ++ literal ++ post) = some (ds ++ literal) := by
  unfold matchHere
  simp only [takeWhile_digits ds post hd, dropWhile_digits ds post hd]
  rw [if_pos ⟨hne, startsWith_append _ _⟩]

theorem matchHere_elim {s m : List Nat} (h : matchHere s = some m) :
    ∃ ds post, MatchAt s [] ds post ∧ m = ds ++ literal := by
  unfold matchHere at h
  simp only at h
  split at h
  · rename_i hc
    obtain ⟨t, ht⟩ := startsWith_elim hc.2
    refine ⟨s.takeWhile isDigit, t, ⟨?_, hc.1, ?_⟩, (Option.some.inj h).symm⟩
    · have := (List.takeWhile_append_dropWhile isDigit s).symm
      rw [ht] at this
      simpa [List.append_assoc] using this
    · intro d hdm
      exact List.mem_takeWhile_imp hdm
  · cases h

theorem Find_of_leftmost {page pre ds post : List Nat}
    (h : LeftmostMatch page pre ds post) : Find page = some (ds ++ literal) := by
  induction pre generalizing page with
  | nil =>
    obtain ⟨⟨hp, hne, hd⟩, _⟩ := h
    have hm := matchHere_of_match ds post hne hd
    simp only [List.nil_append] at hp
    rw [← hp] at hm
    cases page with
    | nil =>
      cases ds with
      | nil => exact absurd rfl hne
      | cons d ds => simp at hp
    | cons b s => simp [Find, hm]
  | cons b pre ih =>
    obtain ⟨⟨hp, hne, hd⟩, hleft⟩ := h
    subst hp
    have hnone : matchHere (b :: pre ++ (ds ++ literal ++ post)) = none := by
      cases hm : matchHere (b :: pre ++ (ds ++ literal ++ post)) with
      | none => rfl
      | some m =>
        obtain ⟨ds', post', hm', _⟩ := matchHere_elim hm
        have := hleft [] ds' post' hm'
        simp at this
    have hrest : LeftmostMatch (pre ++ (ds ++ literal ++ post)) pre ds post := by
      refine ⟨⟨rfl, hne, hd⟩, ?_⟩
      intro pre' ds' post' ⟨hp', hne', hd'⟩
      have := hleft (b :: pre') ds' post' ⟨congrArg (List.cons b) hp', hne', hd'⟩
      simpa using this
    show Find (b :: (pre ++ (ds ++ literal ++ post))) = _
    have hnone' : matchHere (b :: (pre ++ (ds ++ literal ++ post))) = none := hnone
    simp only [Find, hnone']
    exact ih hrest

theorem Find_isSome_of_hasMatch {page : List Nat} (h : HasMatch page) :
    (Find page).isSome = true := by
  obtain ⟨pre, ds, post, hp, hne, hd⟩ := h
  induction pre generalizing page with
  | nil =>
    have hm := matchHere_of_match ds post hne hd
    simp only [List.nil_append] at hp
    rw [← hp] at hm
    cases page with
    | nil =>
      cases ds with
      | nil => exact absurd rfl hne
      | cons d ds => simp at hp
    | cons b s => simp [Find, hm]
  | cons b pre ih =>
    subst hp
    show (Find (b :: (pre ++ (ds ++ literal ++ post)))).isSome = true
    simp only [Find]
    split
    · rfl
    · exact ih rfl

theorem Find_none_of_no_match {page : List Nat} (h : ¬ HasMatch page) :
    Find page = none := by
  induction page with
  | nil => rfl
  | cons b s ih =>
    simp only [Find]
    split
    · rename_i m hm
      obtain ⟨ds, post, hm', _⟩ := matchHere_elim hm
      exact absurd ⟨[], ds, post, hm'⟩ h
    · apply ih
      rintro ⟨pre, ds, post, hp, hne, hd⟩
      exact h ⟨b :: pre, ds, post, congrArg (List.cons b) hp, hne, hd⟩

theorem isDigit_ne_space {d : Nat} (h : isDigit d = true) : d ≠ 32 := by
  intro h32
  subst h32
  simp [isDigit] at h

theorem Split_head_digits (ds t : List Nat) (hd : ∀ d ∈ ds, isDigit d = true) :
    (Split (ds ++ 32 :: t) 32).headD [] = ds := by
  induction ds with
  | nil => simp [Split]
  | cons d ds ih =>
    have h1 : d ≠ 32 := isDigit_ne_space (hd d (List.mem_cons_self _ _))
    have h2 := ih (fun x hx => hd x (List.mem_cons_of_mem _ hx))
    simp only [List.cons_append, Split, if_neg h1]
    cases hs : Split (ds ++ 32 :: t) 32 with
    | nil => rw [hs] at h2; simp at h2; subst h2; rfl
    | cons x xs => rw [hs] at h2; simp at h2; subst h2; rfl

theorem Atoi_digits (intSize : Nat) (ds : List Nat) (hne : ds ≠ [])
    (hd : ∀ d ∈ ds, isDigit d = true) :
    Atoi intSize ds =
      if 2 ^ (intSize - 1) ≤ digitsValue ds then (((2 ^ (intSize - 1) - 1 : Nat) : Int), true)
      else ((digitsValue ds : Int), false) := by
  cases ds with
  | nil => exact absurd rfl hne
  | cons d ds =>
    have h1 : isDigit d = true := hd d (List.mem_cons_self _ _)
    have h43 : d ≠ 43 := by intro h; subst h; simp [isDigit] at h1
    have h45 : d ≠ 45 := by intro h; subst h; simp [isDigit] at h1
    have hall : (d :: ds).all isDigit = true := by
      rw [List.all_eq_true]; exact hd
    have hneg : (match d :: ds with | 45 :: _ => true | _ => false) = false := by
      split
      · rename_i heq; cases heq; exact absurd rfl h45
      · rfl
    have hbody : (match d :: ds with | 43 :: t => t | 45 :: t => t | _ => d :: ds) = d :: ds := by
      split
      · rename_i heq; cases heq; exact absurd rfl h43
      · rename_i heq; cases heq; exact absurd rfl h45
      · rfl
    unfold Atoi
    simp only [hneg, hbody, hall]
    simp

/-- The value `findVacancyCount` gives when the page has a first match. -/
theorem findVacancyCount_of_leftmost (intSize : Nat) {page pre ds post : List Nat}
    (h : LeftmostMatch page pre ds post) :
    findVacancyCount intSize page = ((Atoi intSize ds).1 % 65536).toNat := by
  have hf := Find_of_leftmost h
  obtain ⟨⟨_, hne, hd⟩, _⟩ := h
  unfold findVacancyCount
  simp only [hf, Option.getD_some]
  have hne' : ds ++ literal ≠ [] := by simp [hne]
  rw [if_neg hne']
  have : ds ++ literal = ds ++ 32 :: stem := rfl
  rw [this, Split_head_digits ds stem hd]

theorem uint16_of_natCast (v : Nat) : (((v : Nat) : Int) % 65536).toNat = v % 65536 := by
  omega

/-- A match in front of which no anchored match succeeds is the first one. -/
theorem leftmost_of_no_earlier {page pre ds post : List Nat}
    (h : MatchAt page pre ds post)
    (hno : ∀ k, k < pre.length → matchHere (page.drop k) = none) :
    LeftmostMatch page pre ds post := by
  refine ⟨h, ?_⟩
  intro pre' ds' post' ⟨hp', hne', hd'⟩
  by_contra hlt
  have hk := hno pre'.length (by omega)
  rw [hp', List.drop_left, matchHere_of_match ds' post' hne' hd'] at hk
  cases hk

/-- When `Atoi` reports a range error on the digits of the first match, the
count is not zero but the low sixteen bits of the largest `int`. -/
theorem findVacancyCount_of_range_error (intSize : Nat) (h17 : 17 ≤ intSize)
    {page pre ds post : List Nat} (h : LeftmostMatch page pre ds post)
    (hbig : 2 ^ (intSize - 1) ≤ digitsValue ds) :
    (Atoi intSize ds).2 = true ∧ findVacancyCount intSize page = 65535 := by
  have hA := Atoi_digits intSize ds h.1.2.1 h.1.2.2
  rw [if_pos hbig] at hA
  refine ⟨by rw [hA], ?_⟩
  rw [findVacancyCount_of_leftmost intSize h, hA]
  simp only
  rw [uint16_of_natCast]
  obtain ⟨k, hk⟩ : ∃ k, intSize - 1 = 16 + k := ⟨intSize - 17, by omega⟩
  rw [hk, pow_add]
  have hpos : 0 < 2 ^ k := Nat.pos_pow_of_pos k (by decide)
  have : (2:Nat) ^ 16 = 65536 := by norm_num
  rw [this]
  omega

/-! ## Lemmas on the receive loop -/

theorem take_succ_set {α : Type} (res : List α) (i : Nat) (x : α) (hi : i < res.length) :
    (res.set i x).take (i + 1) = res.take i ++ [x] := by
  induction res generalizing i with
  | nil => simp at hi
  | cons a t ih =>
    cases i with
    | zero => simp
    | succ j =>
      have hj : j < t.length := by simpa using hi
      simp only [List.set_cons_succ, List.take_succ_cons, List.cons_append]
      exact congrArg _ (ih j hj)

theorem drop_set_of_lt {α : Type} (res : List α) (i j : Nat) (x : α) (hij : i < j) :
    (res.set i x).drop j = res.drop j := by
  induction res generalizing i j with
  | nil => simp
  | cons a t ih =>
    cases j with
    | zero => omega
    | succ j' =>
      cases i with
      | zero => simp
      | succ i' =>
        simp only [List.set_cons_succ, List.drop_succ_cons]
        exact ih i' j' (by omega)

theorem perm_getD_eraseIdx {α : Type} (l : List α) (k : Nat) (d : α) (hk : k < l.length) :
    (l.getD k d :: l.eraseIdx k).Perm l := by
  induction l generalizing k with
  | nil => simp at hk
  | cons a t ih =>
    cases k with
    | zero => simp
    | succ j =>
      have hj : j < t.length := by simpa using hk
      have h1 : (a :: t).getD (j + 1) d = t.getD j d := by simp
      have h2 : (a :: t).eraseIdx (j + 1) = a :: t.eraseIdx j := rfl
      rw [h1, h2]
      exact (List.Perm.swap a (t.getD j d) (t.eraseIdx j)).trans ((ih j hj).cons a)

theorem length_eraseIdx_of_lt {α : Type} (l : List α) (k n : Nat)
    (hl : l.length = n + 1) (hk : k < l.length) : (l.eraseIdx k).length = n := by
  rw [List.length_eraseIdx, if_pos hk, hl]
  rfl

/-- The loop fills the slots `i, i+1, ...` with the arrivals, in their order. -/
theorem receiveLoop_eq (langs : List String) (i : Nat) (sched : List Nat)
    (pending monitorRes : List monitorResult)
    (hp : pending.length = langs.length) (hr : i + langs.length ≤ monitorRes.length) :
    receiveLoop langs i sched pending monitorRes =
      some (monitorRes.take i ++ deliver langs.length sched pending ++
        monitorRes.drop (i + langs.length)) := by
  induction langs generalizing i sched pending monitorRes with
  | nil =>
    cases pending with
    | nil => simp [receiveLoop, deliver]
    | cons p ps => simp at hp
  | cons l rest ih =>
    cases pending with
    | nil => simp at hp
    | cons p ps =>
      simp only [List.length_cons] at hp hr
      have hk : sched.headD 0 % (p :: ps).length < (p :: ps).length :=
        Nat.mod_lt _ (by simp)
      have hlen := length_eraseIdx_of_lt (p :: ps) _ rest.length
        (by simpa using hp) hk
      have hi : i < monitorRes.length := by omega
      rw [show (l :: rest).length = rest.length + 1 from rfl]
      simp only [receiveLoop, deliver]
      rw [ih (i + 1) sched.tail ((p :: ps).eraseIdx (sched.headD 0 % (p :: ps).length))
        (monitorRes.set i ((p :: ps).getD (sched.headD 0 % (p :: ps).length) p)) hlen
        (by rw [List.length_set]; omega)]
      rw [take_succ_set _ _ _ hi, drop_set_of_lt _ _ _ _ (by omega)]
      have : i + 1 + rest.length = i + (rest.length + 1) := by omega
      rw [this]
      simp [List.append_assoc]

/-- What `monitor` returns: it always returns, and the result is the list of
arrivals. -/
theorem monitor_eq (intSize : Nat) (httpGet : String → Except String (List Nat))
    (sched : List Nat) (langs : List String) :
    monitor intSize httpGet sched langs =
      some (deliver langs.length sched (langs.map (monitorLang intSize httpGet))) := by
  unfold monitor
  simp only
  rw [receiveLoop_eq langs 0 sched _ _ (by simp) (by simp)]
  simp

theorem deliver_perm (n : Nat) (sched : List Nat) (pending : List monitorResult)
    (hp : pending.length = n) : (deliver n sched pending).Perm pending := by
  induction n generalizing sched pending with
  | zero =>
    cases pending with
    | nil => simp [deliver]
    | cons p ps => simp at hp
  | succ n ih =>
    cases pending with
    | nil => simp at hp
    | cons p ps =>
      have hk : sched.headD 0 % (p :: ps).length < (p :: ps).length :=
        Nat.mod_lt _ (by simp)
      have hlen := length_eraseIdx_of_lt (p :: ps) _ n hp hk
      simp only [deliver]
      exact ((ih sched.tail _ hlen).cons _).trans (perm_getD_eraseIdx (p :: ps) _ p hk)

/-- A scheduler that always takes the first pending sender delivers in launch
order. -/
theorem deliver_launch_order (n : Nat) (sched : List Nat) (pending : List monitorResult)
    (hp : pending.length = n) (h0 : ∀ k ∈ sched, k = 0) :
    deliver n sched pending = pending := by
  induction n generalizing sched pending with
  | zero =>
    cases pending with
    | nil => simp [deliver]
    | cons p ps => simp at hp
  | succ n ih =>
    cases pending with
    | nil => simp at hp
    | cons p ps =>
      have hh : sched.headD 0 = 0 := by
        cases sched with
        | nil => rfl
        | cons k ks => exact h0 k (List.mem_cons_self _ _)
      have ht : ∀ k ∈ sched.tail, k = 0 := fun k hk => h0 k (List.mem_of_mem_tail hk)
      simp only [deliver, hh, Nat.zero_mod, List.eraseIdx_cons_zero]
      rw [ih sched.tail ps (by simpa using hp) ht]
      simp

/-- Every order of arrival is the order of some scheduler: the model of the
channel leaves no permutation of the senders out. -/
theorem deliver_any_order (arrivals pending : List monitorResult)
    (h : arrivals.Perm pending) :
    ∃ sched, deliver pending.length sched pending = arrivals := by
  induction arrivals generalizing pending with
  | nil =>
    have : pending = [] := List.Perm.eq_nil h.symm
    subst this
    exact ⟨[], rfl⟩
  | cons x xs ih =>
    have hx : x ∈ pending := h.subset (List.mem_cons_self _ _)
    obtain ⟨k, hk, hkx⟩ := List.getElem_of_mem hx
    cases pending with
    | nil => simp at hk
    | cons p ps =>
      have hget : (p :: ps).getD k p = x := by
        rw [List.getD_eq_getElem _ _ hk]; exact hkx
      have hperm : xs.Perm ((p :: ps).eraseIdx k) := by
        have h1 := perm_getD_eraseIdx (p :: ps) k p hk
        rw [hget] at h1
        exact List.Perm.cons_inv (h.trans h1.symm)
      obtain ⟨sched, hs⟩ := ih _ hperm
      have hlen := length_eraseIdx_of_lt (p :: ps) k ps.length rfl hk
      rw [hlen] at hs
      refine ⟨k :: sched, ?_⟩
      simp only [List.length_cons, deliver, List.headD_cons, List.tail_cons]
      have hmod : k % (ps.length + 1) = k := Nat.mod_eq_of_lt (by simpa using hk)
      rw [hmod, hget, hs]

/-! ## Lemmas on the report -/

theorem digitChar_ne_newline (m : Nat) (h : m < 10) : Nat.digitChar m ≠ '\n' := by
  interval_cases m <;> decide

theorem toDigitsCore_no_newline (f n : Nat) (acc : List Char)
    (hacc : ∀ c ∈ acc, c ≠ '\n') : ∀ c ∈ Nat.toDigitsCore 10 f n acc, c ≠ '\n' := by
  induction f generalizing n acc with
  | zero => simpa [Nat.toDigitsCore] using hacc
  | succ f ih =>
    have hacc' : ∀ c ∈ Nat.digitChar (n % 10) :: acc, c ≠ '\n' := by
      intro c hc
      rcases List.mem_cons.1 hc with h | h
      · rw [h]; exact digitChar_ne_newline _ (Nat.mod_lt _ (by decide))
      · exact hacc c h
    simp only [Nat.toDigitsCore]
    split
    · exact hacc'
    · exact ih _ _ hacc'

theorem repr_no_newline (n : Nat) : '\n' ∉ (Nat.repr n).toList := by
  intro h
  exact toDigitsCore_no_newline (n + 1) n [] (by simp) '\n' h rfl

theorem Itoa_natCast (n : Nat) : Itoa (n : Int) = Nat.repr n := rfl

theorem pad2_shape (n : Nat) (h : n < 100) :
    pad2 n = String.mk [Nat.digitChar (n / 10), Nat.digitChar (n % 10)] := by
  interval_cases n <;> rfl

theorem foldl_append_init (init : String) (l : List String) :
    l.foldl (fun r s => r ++ s) init = init ++ l.foldl (fun r s => r ++ s) "" := by
  induction l generalizing init with
  | nil => simp
  | cons a l ih =>
    simp only [List.foldl_cons]
    rw [ih (init ++ a), ih ("" ++ a), String.empty_append, String.append_assoc]

theorem join_cons (a : String) (l : List String) :
    String.join (a :: l) = a ++ String.join l := by
  unfold String.join
  rw [List.foldl_cons, foldl_append_init, String.empty_append]

theorem foldl_append_eq {α : Type} (f : α → String) (init : String) (l : List α) :
    l.foldl (fun sb r => sb ++ f r) init = init ++ String.join (l.map f) := by
  induction l generalizing init with
  | nil => simp [String.join]
  | cons a l ih =>
    simp only [List.foldl_cons, List.map_cons]
    rw [ih, join_cons, String.append_assoc]

theorem toList_append (a b : String) : (a ++ b).toList = a.toList ++ b.toList := by
  simp

theorem count_join_map {α : Type} (f : α → String) (c : Char) (l : List α)
    (h : ∀ r ∈ l, (f r).toList.count c = 1) :
    (String.join (l.map f)).toList.count c = l.length := by
  induction l with
  | nil => simp [String.join]
  | cons a l ih =>
    rw [List.map_cons, join_cons, toList_append, List.count_append,
      h a (List.mem_cons_self _ _), ih (fun r hr => h r (List.mem_cons_of_mem _ hr)),
      List.length_cons]
    omega

/-- The line `formStatEntry` writes for a result. -/
theorem formStatEntry_eq (now : Time) (results : List monitorResult) :
    formStatEntry now results =
      Format now ++ String.join (results.map fun r =>
        match r.error with
        | some err => r.lang ++ "=" ++ err ++ "\n"
        | none => r.lang ++ "=" ++ toString r.vacancyCount ++ "\n") := by
  unfold formStatEntry
  rw [foldl_append_eq]
  rfl

theorem Format_shape (now : Time) (hmonth : now.month ≤ 12) (hday : now.day ≤ 31)
    (hhour : now.hour ≤ 23) (hminute : now.minute ≤ 59) :
    Format now =
      String.mk ['[', Nat.digitChar (now.year % 100 / 10), Nat.digitChar (now.year % 10), '-',
        Nat.digitChar (now.month / 10), Nat.digitChar (now.month % 10), '-',
        Nat.digitChar (now.day / 10), Nat.digitChar (now.day % 10), ' ',
        Nat.digitChar (now.hour / 10), Nat.digitChar (now.hour % 10), ':',
        Nat.digitChar (now.minute / 10), Nat.digitChar (now.minute % 10), ']', '\n'] := by
  unfold Format
  rw [pad2_shape (now.year % 100) (Nat.mod_lt _ (by decide)), pad2_shape now.month (by omega),
    pad2_shape now.day (by omega), pad2_shape now.hour (by omega),
    pad2_shape now.minute (by omega)]
  have : now.year % 100 % 10 = now.year % 10 := by omega
  rw [this]
  rfl

theorem line_count (lang value : String) (hl : '\n' ∉ lang.toList)
    (hv : '\n' ∉ value.toList) :
    (lang ++ "=" ++ value ++ "\n").toList.count '\n' = 1 := by
  simp only [toList_append, List.count_append,
    List.count_eq_zero_of_not_mem hl, List.count_eq_zero_of_not_mem hv]
  rfl

theorem foldl_ends_with_newline (results : List monitorResult) (sb : String)
    (h : ∃ body, sb = body ++ "\n") :
    ∃ body, results.foldl
      (fun sb res =>
        let langLine :=
          match res.error with
          | some err => Sprintf res.lang err
          | none => Sprintf res.lang (Itoa (res.vacancyCount : Int))
        sb ++ langLine) sb = body ++ "\n" := by
  induction results generalizing sb with
  | nil => exact h
  | cons r rs ih =>
    rw [List.foldl_cons]
    apply ih
    cases r.error with
    | none =>
      exact ⟨sb ++ (r.lang ++ "=" ++ Itoa (r.vacancyCount : Int)), by
        simp only [Sprintf, String.append_assoc]⟩
    | some err =>
      exact ⟨sb ++ (r.lang ++ "=" ++ err), by simp only [Sprintf, String.append_assoc]⟩

theorem formStatEntry_ends_with_newline (now : Time) (results : List monitorResult) :
    ∃ body, formStatEntry now results = body ++ "\n" := by
  unfold formStatEntry
  apply foldl_ends_with_newline
  exact ⟨"[" ++ pad2 (now.year % 100) ++ "-" ++ pad2 now.month ++ "-" ++ pad2 now.day ++ " " ++
    pad2 now.hour ++ ":" ++ pad2 now.minute ++ "]", by
      unfold Format
      rw [String.append_assoc _ "]" "\n"]
      rfl⟩

/-! ## The claims -/

/-- C1, counterexample: with the languages go and rust and the worker of rust
delivering first, `monitor` returns the result of rust in slot 0, and the first
line of the report after the header names rust, not the first input language. -/
theorem monitor_report_order_counterexample :
    monitor 64 sampleNet [1] ["go", "rust"] =
      some [⟨"rust", 5, none⟩, ⟨"go", 7, none⟩] ∧
    formStatEntry ⟨2026, 11, 4, 10, 13⟩ [⟨"rust", 5, none⟩, ⟨"go", 7, none⟩] =
      "[26-11-04 10:13]\nrust=5\ngo=7\n" := by
  decide

/-- C1, amended: for every list of languages and every scheduler, `monitor`
returns the results in their order of arrival on the channel, the report has
after the header one line per result in that order, each starting with the
language of that result, the languages of the lines are a permutation of the
input, and they are the input in its order when the workers deliver in launch
order. -/
theorem monitor_report_follows_arrival (intSize : Nat)
    (httpGet : String → Except String (List Nat)) (sched : List Nat)
    (langs : List String) (now : Time) :
    ∃ results, monitor intSize httpGet sched langs = some results ∧
      results = deliver langs.length sched (langs.map (monitorLang intSize httpGet)) ∧
      (results.map fun r => r.lang).Perm langs ∧
      formStatEntry now results =
        Format now ++ String.join (results.map fun r =>
          match r.error with
          | some err => r.lang ++ "=" ++ err ++ "\n"
          | none => r.lang ++ "=" ++ toString r.vacancyCount ++ "\n") ∧
      ((∀ k ∈ sched, k = 0) → (results.map fun r => r.lang) = langs) := by
  refine ⟨_, monitor_eq intSize httpGet sched langs, rfl, ?_, formStatEntry_eq now _, ?_⟩
  · have h := (deliver_perm langs.length sched (langs.map (monitorLang intSize httpGet))
      (by simp)).map (fun r => r.lang)
    have hl : (langs.map (monitorLang intSize httpGet)).map (fun r => r.lang) = langs := by
      rw [List.map_map]
      exact List.map_id langs
    rwa [hl] at h
  · intro h0
    rw [deliver_launch_order langs.length sched _ (by simp) h0, List.map_map]
    exact List.map_id langs

/-- C2, counterexample: the page "70000 вакансий" has its first match at the
start, with the digit run 70000, and `findVacancyCount` returns 4464. -/
theorem findVacancyCount_truncates_counterexample :
    LeftmostMatch (utf8 "70000 вакансий") [] (utf8 "70000") (utf8 "ий") ∧
    digitsValue (utf8 "70000") = 70000 ∧
    findVacancyCount 64 (utf8 "70000 вакансий") = 4464 ∧
    findVacancyCount 32 (utf8 "70000 вакансий") = 4464 :=
  ⟨⟨⟨by decide, by decide, by decide⟩, fun _ _ _ _ => Nat.zero_le _⟩,
    by decide, by decide, by decide⟩

/-- C2, amended: when the page has a match of the pattern and the digit run of
the first match has a value that fits Go's `int`, `findVacancyCount` returns
that value reduced modulo 65536, hence the value itself when it is below
65536; matches further right play no part. -/
theorem findVacancyCount_first_match (intSize : Nat) (page pre ds post : List Nat)
    (h : LeftmostMatch page pre ds post) (hfit : digitsValue ds < 2 ^ (intSize - 1)) :
    findVacancyCount intSize page = digitsValue ds % 65536 ∧
      (digitsValue ds < 65536 → findVacancyCount intSize page = digitsValue ds) := by
  have hA := Atoi_digits intSize ds h.1.2.1 h.1.2.2
  rw [if_neg (by omega)] at hA
  have hv : findVacancyCount intSize page = digitsValue ds % 65536 := by
    rw [findVacancyCount_of_leftmost intSize h, hA]
    exact uint16_of_natCast _
  exact ⟨hv, fun hlt => by rw [hv, Nat.mod_eq_of_lt hlt]⟩

/-- C2, witness: in "найдено 42 вакансии, 7 вакансий" the first match is
"42 ваканс" and the count is 42, the match of 7 further right is ignored; the
page "7 вакансии" gives 7. -/
theorem findVacancyCount_first_match_witness :
    findVacancyCount 64 (utf8 "найдено 42 вакансии, 7 вакансий") = 42 ∧
    findVacancyCount 64 (utf8 "7 вакансии") = 7 :=
  ⟨(findVacancyCount_first_match 64 (utf8 "найдено 42 вакансии, 7 вакансий")
      (utf8 "найдено ") (utf8 "42") (utf8 "ии, 7 вакансий")
      (leftmost_of_no_earlier ⟨by decide, by decide, by decide⟩ (by decide))
      (by decide)).2 (by decide),
    (findVacancyCount_first_match 64 (utf8 "7 вакансии") [] (utf8 "7") (utf8 "ии")
      (leftmost_of_no_earlier ⟨by decide, by decide, by decide⟩ (by decide))
      (by decide)).2 (by decide)⟩

/-- C3: when no part of the page matches the pattern, `findVacancyCount`
returns 0; the empty page is such a page. -/
theorem findVacancyCount_no_match (intSize : Nat) (page : List Nat)
    (h : ¬ HasMatch page) :
    findVacancyCount intSize page = 0 ∧ findVacancyCount intSize [] = 0 := by
  refine ⟨?_, rfl⟩
  unfold findVacancyCount
  simp [Find_none_of_no_match h]

/-- C3, witness: "5  вакансий" has digits and the stem, but two spaces between
them, so nothing matches and the count is 0. -/
theorem findVacancyCount_no_match_witness :
    ¬ HasMatch (utf8 "5  вакансий") ∧
    findVacancyCount 64 (utf8 "5  вакансий") = 0 ∧ findVacancyCount 64 [] = 0 :=
  have hno : ¬ HasMatch (utf8 "5  вакансий") := fun hm =>
    absurd (Find_isSome_of_hasMatch hm) (by decide)
  ⟨hno, findVacancyCount_no_match 64 (utf8 "5  вакансий") hno⟩

/-- C4, the code at the failing input: on "99999999999999999999 вакансий" the
pattern matches at the start, `Atoi` reports an error on the digit run (on a
64-bit and on a 32-bit platform), and `findVacancyCount` returns 65535, not 0. -/
theorem findVacancyCount_range_error_not_zero :
    LeftmostMatch (utf8 "99999999999999999999 вакансий") []
      (utf8 "99999999999999999999") (utf8 "ий") ∧
    (Atoi 64 (utf8 "99999999999999999999")).2 = true ∧
    findVacancyCount 64 (utf8 "99999999999999999999 вакансий") = 65535 ∧
    (Atoi 32 (utf8 "99999999999999999999")).2 = true ∧
    findVacancyCount 32 (utf8 "99999999999999999999 вакансий") = 65535 :=
  ⟨⟨⟨by decide, by decide, by decide⟩, fun _ _ _ _ => Nat.zero_le _⟩,
    by decide, by decide, by decide, by decide⟩

/-- C5: at a time whose month, day, hour and minute are calendar values, the
report is the header `[YY-MM-DD HH:MM]` with two-digit zero-padded fields and a
newline, followed by one newline-terminated line per result in list order,
`lang=error text` when the error is set and `lang=decimal count` otherwise;
when no language and no error text holds a newline, the report has exactly
one newline per result plus one. -/
theorem formStatEntry_layout (now : Time) (results : List monitorResult)
    (hmonth : now.month ≤ 12) (hday : now.day ≤ 31) (hhour : now.hour ≤ 23)
    (hminute : now.minute ≤ 59) :
    formStatEntry now results =
      String.mk ['[', Nat.digitChar (now.year % 100 / 10), Nat.digitChar (now.year % 10), '-',
        Nat.digitChar (now.month / 10), Nat.digitChar (now.month % 10), '-',
        Nat.digitChar (now.day / 10), Nat.digitChar (now.day % 10), ' ',
        Nat.digitChar (now.hour / 10), Nat.digitChar (now.hour % 10), ':',
        Nat.digitChar (now.minute / 10), Nat.digitChar (now.minute % 10), ']', '\n'] ++
      String.join (results.map fun r =>
        match r.error with
        | some err => r.lang ++ "=" ++ err ++ "\n"
        | none => r.lang ++ "=" ++ toString r.vacancyCount ++ "\n") ∧
    ((∀ r ∈ results, '\n' ∉ r.lang.toList ∧ ∀ err, r.error = some err → '\n' ∉ err.toList) →
      (formStatEntry now results).toList.count '\n' = results.length + 1) := by
  have hshape := Format_shape now hmonth hday hhour hminute
  have heq := formStatEntry_eq now results
  refine ⟨by rw [heq, hshape], ?_⟩
  intro hclean
  rw [heq, toList_append, List.count_append]
  have hlines := count_join_map (fun r : monitorResult =>
      match r.error with
      | some err => r.lang ++ "=" ++ err ++ "\n"
      | none => r.lang ++ "=" ++ toString r.vacancyCount ++ "\n") '\n' results (by
    intro r hr
    obtain ⟨hl, he⟩ := hclean r hr
    beta_reduce
    split
    · rename_i err hre
      exact line_count _ _ hl (he err hre)
    · exact line_count _ _ hl (repr_no_newline _))
  rw [hlines, hshape]
  have d : ∀ m, m < 10 → (Nat.digitChar m == '\n') = false :=
    fun m hm => beq_false_of_ne (digitChar_ne_newline m hm)
  have h1 : now.year % 100 / 10 < 10 := by omega
  have h2 : now.year % 10 < 10 := by omega
  have h3 : now.month / 10 < 10 := by omega
  have h4 : now.month % 10 < 10 := by omega
  have h5 : now.day / 10 < 10 := by omega
  have h6 : now.day % 10 < 10 := by omega
  have h7 : now.hour / 10 < 10 := by omega
  have h8 : now.hour % 10 < 10 := by omega
  have h9 : now.minute / 10 < 10 := by omega
  have h10 : now.minute % 10 < 10 := by omega
  have hc : (String.mk ['[', Nat.digitChar (now.year % 100 / 10),
        Nat.digitChar (now.year % 10), '-',
        Nat.digitChar (now.month / 10), Nat.digitChar (now.month % 10), '-',
        Nat.digitChar (now.day / 10), Nat.digitChar (now.day % 10), ' ',
        Nat.digitChar (now.hour / 10), Nat.digitChar (now.hour % 10), ':',
        Nat.digitChar (now.minute / 10), Nat.digitChar (now.minute % 10), ']',
        '\n']).toList.count '\n' = 1 := by
    simp only [String.toList, List.count_cons, List.count_nil, d _ h1, d _ h2, d _ h3,
      d _ h4, d _ h5, d _ h6, d _ h7, d _ h8, d _ h9, d _ h10]
    decide
  rw [hc]
  omega

/-- C5, witness: the report of a failed and a successful result at
2026-11-04 10:13 is the header and two lines, three newlines in all. -/
theorem formStatEntry_layout_witness :
    formStatEntry ⟨2026, 11, 4, 10, 13⟩ [⟨"go", 0, some "timeout"⟩, ⟨"rust", 5, none⟩] =
      "[26-11-04 10:13]\ngo=timeout\nrust=5\n" ∧
    (formStatEntry ⟨2026, 11, 4, 10, 13⟩
      [⟨"go", 0, some "timeout"⟩, ⟨"rust", 5, none⟩]).toList.count '\n' = 3 :=
  have h := formStatEntry_layout ⟨2026, 11, 4, 10, 13⟩
    [⟨"go", 0, some "timeout"⟩, ⟨"rust", 5, none⟩]
    (by decide) (by decide) (by decide) (by decide)
  ⟨h.1.trans (by decide), h.2 (by decide)⟩

/-- C6: whatever the network, the scheduler and the other languages,
`monitor` returns one result per requested language, and every requested
language gets the result fixed by its own fetch alone: when its fetch fails,
the result with count 0 and that error is among the results, when it succeeds
the result with no error and the count found on its own page; conversely every
result returned is such a result of a requested language. The report is the
header and one line per result, `lang=error text` for a failed fetch and
`lang=decimal count` for a successful one, and these lines are, up to their
order, the lines of the requested languages, each computed from the fetch of
that language alone. Two networks that agree on a language give the same
result for it. -/
theorem monitor_failure_isolation (intSize : Nat)
    (httpGet : String → Except String (List Nat)) (sched : List Nat)
    (langs : List String) (now : Time) :
    ∃ results, monitor intSize httpGet sched langs = some results ∧
      results.length = langs.length ∧
      (∀ l ∈ langs,
        (∀ err, loadPage httpGet l = .error err →
          ({ lang := l, vacancyCount := 0, error := some err } : monitorResult) ∈ results) ∧
        (∀ page, loadPage httpGet l = .ok page →
          ({ lang := l, vacancyCount := findVacancyCount intSize page, error := none } :
            monitorResult) ∈ results)) ∧
      (∀ r ∈ results, r.lang ∈ langs ∧
        (∀ err, loadPage httpGet r.lang = .error err →
          r.vacancyCount = 0 ∧ r.error = some err) ∧
        (∀ page, loadPage httpGet r.lang = .ok page →
          r.vacancyCount = findVacancyCount intSize page ∧ r.error = none)) ∧
      formStatEntry now results =
        Format now ++ String.join (results.map fun r =>
          match loadPage httpGet r.lang with
          | .error err => r.lang ++ "=" ++ err ++ "\n"
          | .ok page => r.lang ++ "=" ++ toString (findVacancyCount intSize page) ++ "\n") ∧
      (results.map fun r =>
          match loadPage httpGet r.lang with
          | .error err => r.lang ++ "=" ++ err ++ "\n"
          | .ok page => r.lang ++ "=" ++ toString (findVacancyCount intSize page) ++ "\n").Perm
        (langs.map fun l =>
          match loadPage httpGet l with
          | .error err => l ++ "=" ++ err ++ "\n"
          | .ok page => l ++ "=" ++ toString (findVacancyCount intSize page) ++ "\n") ∧
      (∀ (other : String → Except String (List Nat)) (lang : String),
        loadPage other lang = loadPage httpGet lang →
          monitorLang intSize other lang = monitorLang intSize httpGet lang) := by
  have hperm := deliver_perm langs.length sched (langs.map (monitorLang intSize httpGet))
    (by simp)
  have hmem : ∀ r ∈ deliver langs.length sched (langs.map (monitorLang intSize httpGet)),
      ∃ l ∈ langs, r = monitorLang intSize httpGet l := by
    intro r hr
    have := hperm.subset hr
    obtain ⟨l, hl, rfl⟩ := List.mem_map.1 this
    exact ⟨l, hl, rfl⟩
  have hin : ∀ l ∈ langs, monitorLang intSize httpGet l ∈
      deliver langs.length sched (langs.map (monitorLang intSize httpGet)) :=
    fun l hl => hperm.symm.subset (List.mem_map_of_mem _ hl)
  refine ⟨_, monitor_eq intSize httpGet sched langs, ?_, ?_, ?_, ?_, ?_, ?_⟩
  · rw [hperm.length_eq, List.length_map]
  · intro l hl
    refine ⟨?_, ?_⟩
    · intro err he
      have h := hin l hl
      have e : monitorLang intSize httpGet l =
          { lang := l, vacancyCount := 0, error := some err } := by
        simp [monitorLang, getVacancyCount, he]
      rwa [e] at h
    · intro page hp
      have h := hin l hl
      have e : monitorLang intSize httpGet l =
          { lang := l, vacancyCount := findVacancyCount intSize page, error := none } := by
        simp [monitorLang, getVacancyCount, hp]
      rwa [e] at h
  · intro r hr
    obtain ⟨l, hl, rfl⟩ := hmem r hr
    refine ⟨hl, ?_, ?_⟩
    · intro err he
      have he' : loadPage httpGet l = .error err := he
      simp [monitorLang, getVacancyCount, he']
    · intro page hp
      have hp' : loadPage httpGet l = .ok page := hp
      simp [monitorLang, getVacancyCount, hp']
  · rw [formStatEntry_eq]
    congr 2
    apply List.map_congr_left
    intro r hr
    obtain ⟨l, _, rfl⟩ := hmem r hr
    show (match (monitorLang intSize httpGet l).error with
      | some err => l ++ "=" ++ err ++ "\n"
      | none => l ++ "=" ++ toString (monitorLang intSize httpGet l).vacancyCount ++ "\n") =
      (match loadPage httpGet l with
      | .error err => l ++ "=" ++ err ++ "\n"
      | .ok page => l ++ "=" ++ toString (findVacancyCount intSize page) ++ "\n")
    cases hl : loadPage httpGet l with
    | error err => simp [monitorLang, getVacancyCount, hl]
    | ok page => simp [monitorLang, getVacancyCount, hl]
  · have h := hperm.map (fun r : monitorResult =>
      match loadPage httpGet r.lang with
      | .error err => r.lang ++ "=" ++ err ++ "\n"
      | .ok page => r.lang ++ "=" ++ toString (findVacancyCount intSize page) ++ "\n")
    rw [List.map_map] at h
    exact h
  · intro other lang h
    simp [monitorLang, getVacancyCount, h]

/-- C6, witness: go and rust are fetched and a third language is refused, with
the last worker delivering first: the refused language has its line with the
error text, the two others keep their numeric lines. -/
theorem monitor_failure_isolation_witness :
    (monitor 64 sampleNet [2] ["go", "zig", "rust"]).map
        (formStatEntry ⟨2026, 11, 4, 10, 13⟩) =
      some "[26-11-04 10:13]\nrust=5\ngo=7\nzig=connection refused\n" ∧
    ∃ results, monitor 64 sampleNet [2] ["go", "zig", "rust"] = some results ∧
      results.length = 3 ∧
      ({ lang := "zig", vacancyCount := 0, error := some "connection refused" } :
        monitorResult) ∈ results ∧
      ({ lang := "go", vacancyCount := 7, error := none } : monitorResult) ∈ results ∧
      ({ lang := "rust", vacancyCount := 5, error := none } : monitorResult) ∈ results :=
  ⟨by decide,
    match monitor_failure_isolation 64 sampleNet [2] ["go", "zig", "rust"]
      ⟨2026, 11, 4, 10, 13⟩ with
    | ⟨results, hm, hlen, hall, _⟩ =>
      ⟨results, hm, hlen,
        (hall "zig" (by decide)).1 "connection refused" rfl,
        (hall "go" (by decide)).2 (utf8 "7 вакансий") rfl,
        (hall "rust" (by decide)).2 (utf8 "5 вакансий") rfl⟩⟩

/-- C7: for every list of languages, duplicates included, and every scheduler,
`monitor` returns, and what it returns has as many results as there are
languages, is a permutation of the results of the workers, and has for every
language as many results as the language has occurrences in the input; and
every permutation of the results of the workers is returned under some
scheduler, so no order of delivery is left out. -/
theorem monitor_all_results (intSize : Nat)
    (httpGet : String → Except String (List Nat)) (sched : List Nat)
    (langs : List String) :
    ∃ results, monitor intSize httpGet sched langs = some results ∧
      results.length = langs.length ∧
      results.Perm (langs.map (monitorLang intSize httpGet)) ∧
      (∀ l, results.countP (fun r => decide (r.lang = l)) = langs.count l) ∧
      ∀ arrivals, arrivals.Perm (langs.map (monitorLang intSize httpGet)) →
        ∃ sched2, monitor intSize httpGet sched2 langs = some arrivals := by
  have hperm := deliver_perm langs.length sched (langs.map (monitorLang intSize httpGet))
    (by simp)
  refine ⟨_, monitor_eq intSize httpGet sched langs, ?_, hperm, ?_, ?_⟩
  · rw [hperm.length_eq, List.length_map]
  · intro l
    rw [hperm.countP_eq, List.countP_map, List.count]
    apply List.countP_congr
    intro x _
    simp [monitorLang]
  · intro arrivals ha
    obtain ⟨sched2, hs⟩ := deliver_any_order arrivals _ ha
    rw [List.length_map] at hs
    exact ⟨sched2, by rw [monitor_eq, hs]⟩

/-- The argument lists on which `parseArgs` stops without a result: the
program name alone, nothing at all, and the flag with no file behind it. -/
theorem parseArgs_error_iff (osArgs : List String) :
    (∃ p, parseArgs osArgs = .error p) ↔
      osArgs = [] ∨ (∃ prog, osArgs = [prog]) ∨ (∃ prog, osArgs = [prog, "-f"]) := by
  constructor
  · rintro ⟨p, hp⟩
    match osArgs, hp with
    | [], _ => exact Or.inl rfl
    | [prog], _ => exact Or.inr (Or.inl ⟨prog, rfl⟩)
    | [prog, first], hp =>
      by_cases hf : first = "-f"
      · subst hf; exact Or.inr (Or.inr ⟨prog, rfl⟩)
      · simp [parseArgs, hf] at hp
    | prog :: first :: file :: rest, hp =>
      by_cases hf : first = "-f"
      · simp [parseArgs, hf] at hp
      · simp [parseArgs, hf] at hp
  · rintro (h | ⟨prog, h⟩ | ⟨prog, h⟩)
    · subst h; exact ⟨_, rfl⟩
    · subst h; exact ⟨_, rfl⟩
    · subst h; exact ⟨_, rfl⟩

/-- C8, counterexample: with no argument behind the program name `parseArgs`
does not return an empty file path and an empty language list, it panics. -/
theorem parseArgs_no_arguments_counterexample :
    parseArgs ["hh-monitor"] = .error (.logPanic "argumets are missing") := by
  rfl

/-- C8, amended: for an argument list with a first argument: when that is
exactly `-f` and a second argument follows, `parseArgs` returns the second
argument as the file path and the arguments from the third on (possibly none)
as the languages; when it is not `-f`, `parseArgs` returns the empty file path
and the whole argument list, in its order, as the languages. -/
theorem parseArgs_result (prog first : String) (rest : List String) :
    (first = "-f" → ∀ file langs, rest = file :: langs →
      parseArgs (prog :: first :: rest) = .ok { filePath := file, langs := langs }) ∧
    (first ≠ "-f" →
      parseArgs (prog :: first :: rest) = .ok { filePath := "", langs := first :: rest }) := by
  constructor
  · intro hf file langs hrest
    subst hf hrest
    simp [parseArgs]
  · intro hf
    simp [parseArgs, hf]

/-- C8, witness: `-f out.txt go rust`, `-f out.txt` and `go rust`. -/
theorem parseArgs_result_witness :
    parseArgs ["hh-monitor", "-f", "out.txt", "go", "rust"] =
      .ok { filePath := "out.txt", langs := ["go", "rust"] } ∧
    parseArgs ["hh-monitor", "-f", "out.txt"] = .ok { filePath := "out.txt", langs := [] } ∧
    parseArgs ["hh-monitor", "go", "rust"] = .ok { filePath := "", langs := ["go", "rust"] } :=
  ⟨(parseArgs_result "hh-monitor" "-f" ["out.txt", "go", "rust"]).1 rfl _ _ rfl,
    (parseArgs_result "hh-monitor" "-f" ["out.txt"]).1 rfl _ _ rfl,
    (parseArgs_result "hh-monitor" "go" ["rust"]).2 (by decide)⟩

/-- C9, the code at the failing input: the argument list `-f` is not empty, and
`parseArgs` stops on it with the index 2 out of the range of `os.Args`, whose
length is 2. -/
theorem parseArgs_flag_without_file :
    parseArgs ["hh-monitor", "-f"] = .error (.indexOutOfRange 2 2) := by
  rfl

/-- C10: a `saveToFile` that succeeds leaves the file with its old content
(nothing when it did not exist), then the entry, then one newline, and leaves
every other file alone; two successful runs in a row leave the old content,
the first block, a newline, the second block, a newline; and as a report ends
with a newline, what is written for a report ends with an empty line. -/
theorem saveToFile_appends (openErr writeErr openErr2 writeErr2 : Option String)
    (fs fs1 fs2 : String → Option String) (filePath b1 b2 : String)
    (now : Time) (results : List monitorResult)
    (h1 : saveToFile openErr writeErr fs filePath b1 = .ok fs1)
    (h2 : saveToFile openErr2 writeErr2 fs1 filePath b2 = .ok fs2) :
    fs1 filePath = some ((fs filePath).getD "" ++ b1 ++ "\n") ∧
    (∀ other, other ≠ filePath → fs1 other = fs other) ∧
    fs2 filePath = some ((fs filePath).getD "" ++ b1 ++ "\n" ++ b2 ++ "\n") ∧
    (∀ other, other ≠ filePath → fs2 other = fs other) ∧
    ∃ body, Sprintln (formStatEntry now results) = body ++ "\n" ++ "\n" := by
  have step : ∀ (oe we : Option String) (f g : String → Option String) (e : String),
      saveToFile oe we f filePath e = .ok g →
        g = fun p => if p = filePath then some ((f filePath).getD "" ++ (e ++ "\n")) else f p := by
    intro oe we f g e h
    unfold saveToFile at h
    cases oe with
    | some err => cases h
    | none =>
      cases we with
      | some err => cases h
      | none => exact (Except.ok.inj h).symm
  have e1 := step _ _ _ _ _ h1
  have e2 := step _ _ _ _ _ h2
  subst e1
  subst e2
  refine ⟨by simp [String.append_assoc], fun o ho => by simp [ho], by simp [String.append_assoc],
    fun o ho => by simp [ho], ?_⟩
  obtain ⟨body, hb⟩ := formStatEntry_ends_with_newline now results
  exact ⟨body, by rw [hb]; rfl⟩

/-- C10, witness: two runs on a file that holds "old\n" leave the old
content and the two blocks, each with an empty line behind it. -/
theorem saveToFile_appends_witness :
    ∃ fs1 fs2,
      saveToFile none none sampleFs "stat.txt" "[26-11-04 10:13]\ngo=7\n" = .ok fs1 ∧
      saveToFile none none fs1 "stat.txt" "[26-11-04 10:14]\ngo=8\n" = .ok fs2 ∧
      fs2 "stat.txt" = some "old\n[26-11-04 10:13]\ngo=7\n\n[26-11-04 10:14]\ngo=8\n\n" :=
  ⟨_, _, rfl, rfl,
    (saveToFile_appends none none none none sampleFs _ _
      "stat.txt" "[26-11-04 10:13]\ngo=7\n" "[26-11-04 10:14]\ngo=8\n"
      ⟨2026, 11, 4, 10, 13⟩ [] rfl rfl).2.2.1.trans (by decide)⟩

end HhMonitor
